import Mathlib

/-!
Verification of the PRISM Section-Aware Two-Stage Retrieval pipeline and the
Grounded-Answer Generation state machine, together with the frontend chat
components (confidence badge, citation rendering, citation click handling).

The backend components (Intent Classifier, Candidate Ranker, Grounded Answer
Generator, Response Cache) are modelled from the specification and the design
documents in the repository; the frontend components are shallow embeddings of
the TypeScript sources under frontend/apps/web/components/chat and lib/store.
-/

namespace PRISM

/-! ## Intent Classifier

Modelled from the spec: the Python backend file implementing
query-intent detection is not in the source tree; only the design
document (Improved Retrieval Strategy, Section Keywords Mapping) and the
spec section 4.1 describe it.  A rule is a keyword group together with the
set of target sections; classification lower-cases the query, matches each
keyword group by substring containment, and unions the section sets of all
matching rules. -/

structure SectionRule where
  keywords : List String
  sections : List String
deriving Repr, DecidableEq

def sectionRules : List SectionRule :=
  [ ⟨["result", "finding", "performance", "accuracy", "achieve", "obtain", "metric"],
     ["results", "experiments", "evaluation"]⟩,
    ⟨["method", "approach", "implement", "algorithm", "technique", "procedure", "how", "process"],
     ["methodology", "methods", "experiments"]⟩,
    ⟨["what is", "define", "background", "context", "introduction", "overview"],
     ["introduction", "background", "abstract"]⟩,
    ⟨["related", "previous", "prior", "existing", "literature"],
     ["related_work", "background"]⟩,
    ⟨["discuss", "analyze", "interpret", "explain", "why"],
     ["discussion", "results", "conclusion"]⟩,
    ⟨["conclusion", "summary", "contribution", "future", "limitation"],
     ["conclusion", "discussion"]⟩,
    ⟨["dataset", "data", "experiment", "evaluation", "benchmark"],
     ["experiments", "results", "methodology"]⟩ ]

def listStartsWith : List Char → List Char → Bool
  | [], _ => true
  | _ :: _, [] => false
  | a :: as, b :: bs => a == b && listStartsWith as bs

def containsSeq (needle : List Char) : List Char → Bool
  | [] => needle.isEmpty
  | c :: cs => listStartsWith needle (c :: cs) || containsSeq needle cs

def ruleMatches (r : SectionRule) (query : String) : Bool :=
  r.keywords.any fun k => containsSeq k.toList (query.toList.map Char.toLower)

def classify (query : String) : List String :=
  ((sectionRules.filter fun r => ruleMatches r query).map (fun r => r.sections)).flatten

/-! ## Section Boosting

Modelled from the spec: the boosting code itself is absent from the source
tree; the design document (Phase 3: Strong Section Boosting, Related
Section Groups) gives the factors 2.0 for an exact section match, 1.3 for
a section in a related group intersecting the target set, and 1.0
otherwise.  Scores are modelled as rationals. -/

def relatedGroups : List (List String) :=
  [ ["results", "experiments", "evaluation"],
    ["methodology", "methods", "experiments"],
    ["introduction", "background", "abstract"],
    ["discussion", "conclusion", "results"] ]

def isRelatedSection (sec : String) (target : List String) : Bool :=
  relatedGroups.any fun g => g.contains sec && g.any fun s => target.contains s

def boostFactor (sec : String) (target : List String) : ℚ :=
  if target.contains sec then 2
  else if isRelatedSection sec target then 13/10
  else 1

def boostedScore (sim : ℚ) (sec : String) (target : List String) : ℚ :=
  sim * boostFactor sec target

/-! ## Candidate Ranker

Modelled from the spec: the Python ranking pipeline is absent from the
source tree; the design document (5-phase intelligent retrieval) and spec
section 4.2 describe it.  The external collaborators are abstracted: the
vector search result is the candidate pool argument, and the cross-encoder
plus sigmoid composite is the rerank scoring function argument. -/

structure Chunk where
  chunk_id : String
  document_id : String
  text : String
  page : Option Int
  section_type : String
  chunk_index : Nat
deriving Repr, DecidableEq

structure Candidate where
  chunk : Chunk
  similarity_score : ℚ
deriving Repr, DecidableEq

structure Evidence where
  chunk_id : String
  document_id : String
  text : String
  score : ℚ
  page : Option Int
  chunk_index : Nat
deriving Repr, DecidableEq

abbrev LocKey := String × Option Int × Nat

def localityKey (c : Chunk) : LocKey :=
  (c.document_id, c.page, c.chunk_index / 3)

def evidenceKey (e : Evidence) : LocKey :=
  (e.document_id, e.page, e.chunk_index / 3)

def diversityFilterGo (seen : List LocKey) : List Candidate → List Candidate
  | [] => []
  | c :: cs =>
    if localityKey c.chunk ∈ seen then diversityFilterGo seen cs
    else c :: diversityFilterGo (localityKey c.chunk :: seen) cs

def diversityFilter (l : List Candidate) : List Candidate :=
  diversityFilterGo [] l

def mkEvidence (rr : Candidate → ℚ) (i : Nat) (c : Candidate) : Evidence :=
  { chunk_id := "c" ++ toString i
    document_id := c.chunk.document_id
    text := c.chunk.text
    score := rr c
    page := c.chunk.page
    chunk_index := c.chunk.chunk_index }

def assignIds (rr : Candidate → ℚ) : Nat → List Candidate → List Evidence
  | _, [] => []
  | i, c :: cs => mkEvidence rr i c :: assignIds rr (i + 1) cs

def rank (query : String) (pool : List Candidate) (rr : Candidate → ℚ)
    (rerankTopK finalTopK : Nat) : List Evidence :=
  let target := classify query
  let scored := pool.map fun c =>
    (c, boostedScore c.similarity_score c.chunk.section_type target)
  let sorted := (scored.mergeSort fun a b => decide (b.2 ≤ a.2)).map Prod.fst
  let diverse := (diversityFilter sorted).take rerankTopK
  let reranked := diverse.mergeSort fun a b => decide (rr b ≤ rr a)
  assignIds rr 1 (reranked.take finalTopK)

/-! ## Citation markers

Shallow embedding of the citation-marker handling in
frontend/apps/web/components/chat/message.tsx.  A citation token is a
maximal match of the regular expression pattern bracket-c-digits-bracket;
citationAt parses such a token at the head of a character list exactly as
the regex engine matches it at one position (the digit run is taken
greedily and must be followed by the closing bracket).  splitCitations
models content.split on the capturing citation regex: the resulting parts
alternate between non-matching text and the captured tokens, in order.
The recursion is driven by a fuel argument equal to the input length so
that all definitions are structural and computable. -/

def citationAt : List Char → Option (List Char × List Char)
  | '[' :: 'c' :: rest =>
    match rest.takeWhile Char.isDigit, rest.dropWhile Char.isDigit with
    | [], _ => none
    | ds, ']' :: tail => some ('[' :: 'c' :: (ds ++ [']']), tail)
    | _, _ => none
  | _ => none

def splitGoAux : Nat → List Char → List Char → List (List Char)
  | 0, acc, l => [acc.reverse ++ l]
  | fuel + 1, acc, l =>
    match citationAt l with
    | some (tok, rest) => acc.reverse :: tok :: splitGoAux fuel [] rest
    | none =>
      match l with
      | [] => [acc.reverse]
      | c :: cs => splitGoAux fuel (c :: acc) cs

def splitCitations (l : List Char) : List (List Char) :=
  splitGoAux l.length [] l

def containsCitation : List Char → Bool
  | [] => false
  | c :: cs => (citationAt (c :: cs)).isSome || containsCitation cs

def isCitationToken (l : List Char) : Bool :=
  match citationAt l with
  | some (_, rest) => rest.isEmpty
  | none => false

def extractGo : Nat → List Char → List (List Char)
  | 0, _ => []
  | fuel + 1, l =>
    match citationAt l with
    | some (tok, rest) => (tok.drop 1).dropLast :: extractGo fuel rest
    | none =>
      match l with
      | [] => []
      | _ :: cs => extractGo fuel cs

def extractCitationIds (l : List Char) : List (List Char) :=
  extractGo l.length l

/-! ## Grounded Answer Generator

Modelled from the spec: the LangGraph draft/validate pipeline is absent
from the source tree; spec sections 4.3 and 7 and the grounding-validation
design document describe it.  The two external LLM calls are abstracted as
Except-valued arguments: the draft call yields the structured draft (or a
generation failure, which fails the request), the validation call yields a
confidence and the unsupported spans (or a failure, which degrades to the
fixed default confidence one half).  With zero evidence the generator
short-circuits before either call. -/

structure DraftAnswer where
  answer : String
  used_chunks : List String
deriving Repr, DecidableEq

structure UnsupportedSpan where
  text : String
  reason : String
deriving Repr, DecidableEq

structure AnswerResult where
  message : String
  sources : List Evidence
  confidence : ℚ
  unsupported_spans : List UnsupportedSpan
deriving Repr, DecidableEq

def noContextMessage : String :=
  "No supporting context was found to answer this question."

def generateAnswer (evidence : List Evidence)
    (draftCall : Except String DraftAnswer)
    (validateCall : Except String (ℚ × List UnsupportedSpan)) :
    Except String AnswerResult :=
  if evidence.isEmpty then
    .ok { message := noContextMessage, sources := [], confidence := 0,
          unsupported_spans := [] }
  else
    match draftCall with
    | .error e => .error e
    | .ok draft =>
      let validUsed := draft.used_chunks.filter fun id =>
        evidence.any fun ev => ev.chunk_id == id
      let sources := evidence.filter fun ev => validUsed.contains ev.chunk_id
      match validateCall with
      | .ok (conf, spans) =>
        .ok { message := draft.answer, sources := sources,
              confidence := conf, unsupported_spans := spans }
      | .error _ =>
        .ok { message := draft.answer, sources := sources,
              confidence := 1/2, unsupported_spans := [] }

/-! ## Response Cache

Modelled from the spec: the Redis-backed LLM cache is absent from the
source tree; the design documents (Redis LLM Cache, 24hr TTL) and spec
section 4.3 describe it.  The cache is a list of keyed entries with an
absolute expiry instant; a lookup hits only before expiry; a completion is
stored, with a fixed 24-hour time-to-live, only when the LLM call
succeeds.  cachedComplete returns the completion outcome, the updated
cache, and the number of external LLM calls performed. -/

def cacheTTL : Nat := 24 * 60 * 60

structure CacheEntry where
  key : String
  value : String
  expiry : Nat
deriving Repr, DecidableEq

def cacheGet (cache : List CacheEntry) (now : Nat) (k : String) : Option String :=
  match cache.find? (fun e => e.key == k) with
  | some e => if now < e.expiry then some e.value else none
  | none => none

def cachePut (cache : List CacheEntry) (now : Nat) (k v : String) :
    List CacheEntry :=
  ⟨k, v, now + cacheTTL⟩ :: cache

def cachedComplete (cache : List CacheEntry) (now : Nat) (k : String)
    (llm : Except String String) :
    Except String String × List CacheEntry × Nat :=
  match cacheGet cache now k with
  | some v => (.ok v, cache, 0)
  | none =>
    match llm with
    | .ok v => (.ok v, cachePut cache now k v, 1)
    | .error e => (.error e, cache, 1)

/-! ## Sigmoid score normalization

Modelled from the spec: the reranker is absent from the source tree; the
smart-chunking design document gives the normalization as one over one
plus the exponential of the negated logit, mapping unbounded cross-encoder
logits into the unit interval. -/

noncomputable def sigmoid (x : ℝ) : ℝ :=
  1 / (1 + Real.exp (-x))

/-! ## Frontend: confidence badge

Shallow embedding of getLevel in
frontend/apps/web/components/chat/confidence-badge.tsx.  Confidence values
are modelled as rationals; the thresholds 0.75 and 0.4 are the rationals
three quarters and two fifths. -/

inductive ConfidenceLevel
  | high
  | medium
  | low
deriving Repr, DecidableEq

def getLevel (confidence : ℚ) : ConfidenceLevel :=
  if confidence ≥ 3/4 then .high
  else if confidence ≥ 2/5 then .medium
  else .low

/-! ## Frontend: citation click handling

Shallow embedding of the sources map, handleCitationClick and the zustand
store openPdfViewer action from
frontend/apps/web/components/chat/message.tsx and
frontend/apps/web/lib/store.ts.  The sources map is built by inserting each
source under its chunk id in order, so a later source with the same id
overwrites an earlier one, which the left fold reproduces.  The highlight
text is the first 200 characters of the source text with whitespace runs
collapsed and ends trimmed; the store turns an empty highlight string into
the absent value, and opening the viewer touches only the four viewer
fields.  Payload types of the non-viewer state fields are simplified but
the fields themselves are kept so that frame conditions are expressible. -/

structure EvidenceSource where
  chunk_id : String
  document_id : String
  page : Option ℚ
  text : List Char
deriving Repr, DecidableEq

def sourcesMapLookup (sources : List EvidenceSource) (id : String) :
    Option EvidenceSource :=
  sources.foldl (fun acc s => if s.chunk_id == id then some s else acc) none

inductive DocViewMode
  | grid
  | list
deriving Repr, DecidableEq

structure AppState where
  currentSession : Option String
  sessionMessages : List (String × List String)
  sidebarOpen : Bool
  documentViewMode : DocViewMode
  selectedDocument : Option String
  pdfViewerOpen : Bool
  pdfViewerDocumentId : Option String
  pdfViewerPage : ℚ
  pdfViewerHighlightText : Option String
  isLoading : Bool
deriving Repr, DecidableEq

def initialAppState : AppState where
  currentSession := none
  sessionMessages := []
  sidebarOpen := true
  documentViewMode := .grid
  selectedDocument := none
  pdfViewerOpen := false
  pdfViewerDocumentId := none
  pdfViewerPage := 1
  pdfViewerHighlightText := none
  isLoading := false

def openPdfViewer (s : AppState) (documentId : String) (page : ℚ)
    (highlightText : String) : AppState :=
  { s with
    pdfViewerOpen := true
    pdfViewerDocumentId := some documentId
    pdfViewerPage := page
    pdfViewerHighlightText :=
      if highlightText == "" then none else some highlightText }

def collapseWsGo (prevWs : Bool) : List Char → List Char
  | [] => []
  | c :: cs =>
    if c.isWhitespace then
      if prevWs then collapseWsGo true cs else ' ' :: collapseWsGo true cs
    else c :: collapseWsGo false cs

def collapseWs (l : List Char) : List Char :=
  collapseWsGo false l

def trimChars (l : List Char) : List Char :=
  ((l.dropWhile Char.isWhitespace).reverse.dropWhile Char.isWhitespace).reverse

def effectivePage (page : Option ℚ) : ℚ :=
  match page with
  | some p => if p = 0 then 1 else p
  | none => 1

def handleCitationClick (sources : List EvidenceSource) (chunkId : String)
    (s : AppState) : AppState :=
  match sourcesMapLookup sources chunkId with
  | none => s
  | some src =>
    let highlight := trimChars (collapseWs (src.text.take 200))
    openPdfViewer s src.document_id (effectivePage src.page)
      (String.mk highlight)

end PRISM

namespace PRISM

/-- C4: classify is a deterministic function of the query alone; it performs
case-insensitive substring matching of the keyword groups against the
lower-cased query, a section is returned exactly when some matching rule
contains it (the union of all matched groups), and when no rule matches the
result is empty. -/
theorem classify_characterization (q s : String) :
    (s ∈ classify q ↔ ∃ r, r ∈ sectionRules ∧ ruleMatches r q = true ∧ s ∈ r.sections) ∧
    ((∀ r ∈ sectionRules, ruleMatches r q = false) → classify q = []) := by
  constructor
  · simp only [classify, List.mem_flatten, List.mem_map, List.mem_filter]
    constructor
    · rintro ⟨l, ⟨r, ⟨hr, hm⟩, rfl⟩, hs⟩
      exact ⟨r, hr, hm, hs⟩
    · rintro ⟨r, hr, hm, hs⟩
      exact ⟨r.sections, ⟨r, ⟨hr, hm⟩, rfl⟩, hs⟩
  · intro h
    have : sectionRules.filter (fun r => ruleMatches r q) = [] := by
      apply List.filter_eq_nil_iff.mpr
      intro r hr
      simp [h r hr]
    simp [classify, this]

/-- Witness for C4 at a concrete query that matches no keyword group. -/
theorem classify_characterization_witness : classify "zz" = [] :=
  (classify_characterization "zz" "results").2 (by decide)

/-- C3: the boosted score equals the similarity times 2.0 on an exact target
match, times 1.3 when the section is not a target but lies in a related group
intersecting the target set, and is unchanged otherwise; for nonnegative
similarity scores the boosted score is never below the raw score. -/
theorem boostedScore_spec (sim : ℚ) (sec : String) (target : List String)
    (hsim : 0 ≤ sim) :
    (target.contains sec = true → boostedScore sim sec target = sim * 2) ∧
    (target.contains sec = false → isRelatedSection sec target = true →
      boostedScore sim sec target = sim * (13/10)) ∧
    (target.contains sec = false → isRelatedSection sec target = false →
      boostedScore sim sec target = sim) ∧
    sim ≤ boostedScore sim sec target := by
  unfold boostedScore boostFactor
  refine ⟨fun h => ?_, fun h hr => ?_, fun h hr => ?_, ?_⟩
  · rw [if_pos h]
  · rw [if_neg (by simpa using h), if_pos hr]
  · rw [if_neg (by simpa using h), if_neg (by simp [hr]), mul_one]
  · split
    · nlinarith
    · split
      · nlinarith
      · nlinarith

/-- Witness for C3 at a concrete candidate: an exact section match doubles the
score and does not decrease it. -/
theorem boostedScore_spec_witness :
    boostedScore 1 "results" ["results", "experiments"] = 1 * 2 ∧
    (1 : ℚ) ≤ boostedScore 1 "results" ["results", "experiments"] := by
  have h := boostedScore_spec 1 "results" ["results", "experiments"] (by norm_num)
  exact ⟨h.1 (by decide), h.2.2.2⟩

theorem diversityFilterGo_not_seen :
    ∀ (l : List Candidate) (seen : List LocKey) (c : Candidate),
      c ∈ diversityFilterGo seen l → localityKey c.chunk ∉ seen := by
  intro l
  induction l with
  | nil => intro seen c h; simp [diversityFilterGo] at h
  | cons a as ih =>
    intro seen c h
    rw [diversityFilterGo] at h
    split at h
    · exact ih seen c h
    · rcases List.mem_cons.mp h with rfl | h2
      · assumption
      · have := ih _ c h2
        intro hc
        exact this (List.mem_cons_of_mem _ hc)

theorem diversityFilterGo_pairwise :
    ∀ (l : List Candidate) (seen : List LocKey),
      (diversityFilterGo seen l).Pairwise
        (fun a b => localityKey a.chunk ≠ localityKey b.chunk) := by
  intro l
  induction l with
  | nil => intro seen; simp [diversityFilterGo]
  | cons a as ih =>
    intro seen
    rw [diversityFilterGo]
    split
    · exact ih seen
    · refine List.pairwise_cons.mpr ⟨?_, ih _⟩
      intro b hb
      have := diversityFilterGo_not_seen as _ b hb
      intro hab
      exact this (by rw [← hab]; exact List.mem_cons_self _ _)

theorem diversityFilter_pairwise (l : List Candidate) :
    (diversityFilter l).Pairwise
      (fun a b => localityKey a.chunk ≠ localityKey b.chunk) :=
  diversityFilterGo_pairwise l []

theorem assignIds_length (rr : Candidate → ℚ) :
    ∀ (i : Nat) (l : List Candidate), (assignIds rr i l).length = l.length := by
  intro i l
  induction l generalizing i with
  | nil => rfl
  | cons a as ih => simp [assignIds, ih]

theorem evidenceKey_mkEvidence (rr : Candidate → ℚ) (i : Nat) (c : Candidate) :
    evidenceKey (mkEvidence rr i c) = localityKey c.chunk := rfl

theorem assignIds_mem (rr : Candidate → ℚ) :
    ∀ (i : Nat) (l : List Candidate) (e : Evidence), e ∈ assignIds rr i l →
      ∃ c ∈ l, evidenceKey e = localityKey c.chunk := by
  intro i l
  induction l generalizing i with
  | nil => intro e h; simp [assignIds] at h
  | cons a as ih =>
    intro e h
    rcases List.mem_cons.mp h with rfl | h2
    · exact ⟨a, List.mem_cons_self _ _, rfl⟩
    · obtain ⟨c, hc, hk⟩ := ih (i + 1) e h2
      exact ⟨c, List.mem_cons_of_mem _ hc, hk⟩

theorem assignIds_pairwise (rr : Candidate → ℚ) :
    ∀ (i : Nat) (l : List Candidate),
      l.Pairwise (fun a b => localityKey a.chunk ≠ localityKey b.chunk) →
      (assignIds rr i l).Pairwise (fun e1 e2 => evidenceKey e1 ≠ evidenceKey e2) := by
  intro i l
  induction l generalizing i with
  | nil => intro _; simp [assignIds]
  | cons a as ih =>
    intro hp
    rcases List.pairwise_cons.mp hp with ⟨ha, has⟩
    refine List.pairwise_cons.mpr ⟨?_, ih (i + 1) has⟩
    intro e he
    obtain ⟨c, hc, hk⟩ := assignIds_mem rr (i + 1) as e he
    rw [evidenceKey_mkEvidence, hk]
    exact ha c hc

/-- C1: for every query, candidate pool, rerank scoring function and
configuration, the Evidence list returned by the Candidate Ranker has length
at most finalTopK, and any two distinct Evidence items in it have distinct
locality keys (document_id, page, chunk_index div 3). -/
theorem rank_topk_and_diverse (query : String) (pool : List Candidate)
    (rr : Candidate → ℚ) (rerankTopK finalTopK : Nat) :
    (rank query pool rr rerankTopK finalTopK).length ≤ finalTopK ∧
    (rank query pool rr rerankTopK finalTopK).Pairwise
      (fun e1 e2 => evidenceKey e1 ≠ evidenceKey e2) := by
  simp only [rank]
  constructor
  · rw [assignIds_length, List.length_take]
    exact min_le_left _ _
  · apply assignIds_pairwise
    apply List.Pairwise.sublist (List.take_sublist _ _)
    have hsymm : ∀ {x y : Candidate},
        localityKey x.chunk ≠ localityKey y.chunk →
        localityKey y.chunk ≠ localityKey x.chunk := fun h => h.symm
    refine ((List.mergeSort_perm _ _).pairwise_iff hsymm).mpr ?_
    apply List.Pairwise.sublist (List.take_sublist _ _)
    exact diversityFilter_pairwise _

theorem citationAt_nil : citationAt [] = none := rfl

theorem digits_append_bracket (ds x : List Char)
    (hd : ∀ a ∈ ds, Char.isDigit a = true) :
    (ds ++ ']' :: x).takeWhile Char.isDigit = ds ∧
    (ds ++ ']' :: x).dropWhile Char.isDigit = ']' :: x := by
  induction ds with
  | nil =>
    have h : Char.isDigit ']' = false := by decide
    simp [List.takeWhile_cons, List.dropWhile_cons, h]
  | cons a as ih =>
    have ha : Char.isDigit a = true := hd a (List.mem_cons_self _ _)
    have ih' := ih fun b hb => hd b (List.mem_cons_of_mem _ hb)
    simp [List.takeWhile_cons, List.dropWhile_cons, ha, ih'.1, ih'.2]

theorem citationAt_cons (rest : List Char) :
    citationAt ('[' :: 'c' :: rest) =
      match rest.takeWhile Char.isDigit, rest.dropWhile Char.isDigit with
      | [], _ => none
      | ds, ']' :: tail => some ('[' :: 'c' :: (ds ++ [']']), tail)
      | _, _ => none := rfl

theorem citationAt_build (ds x : List Char) (hne : ds ≠ [])
    (hd : ∀ a ∈ ds, Char.isDigit a = true) :
    citationAt ('[' :: 'c' :: (ds ++ ']' :: x)) =
      some ('[' :: 'c' :: (ds ++ [']']), x) := by
  obtain ⟨d, ds', rfl⟩ := List.exists_cons_of_ne_nil hne
  obtain ⟨tw, dw⟩ := digits_append_bracket (d :: ds') x hd
  rw [citationAt_cons, tw, dw]
  rfl

theorem citationAt_some {l tok rest : List Char}
    (h : citationAt l = some (tok, rest)) :
    ∃ ds, ds ≠ [] ∧ (∀ a ∈ ds, Char.isDigit a = true) ∧
      l = '[' :: 'c' :: (ds ++ ']' :: rest) ∧
      tok = '[' :: 'c' :: (ds ++ [']']) := by
  unfold citationAt at h
  split at h
  · next r =>
    split at h
    · exact absurd h (by simp)
    · next ds tail htw hdw =>
      simp only [Option.some.injEq, Prod.mk.injEq] at h
      obtain ⟨htok, hrest⟩ := h
      refine ⟨r.takeWhile Char.isDigit, ?_, ?_, ?_, htok.symm⟩
      · intro hnil
        exact hdw hnil
      · intro a ha
        exact List.mem_takeWhile_imp ha
      · have hr : r = r.takeWhile Char.isDigit ++ ']' :: tail := by
          conv_lhs => rw [← List.takeWhile_append_dropWhile Char.isDigit r]
          rw [htw]
        conv_lhs => rw [hr]
        rw [hrest]
    · exact absurd h (by simp)
  · exact absurd h (by simp)

theorem citationAt_append {t tok rest : List Char} (ext : List Char)
    (h : citationAt t = some (tok, rest)) :
    citationAt (t ++ ext) = some (tok, rest ++ ext) := by
  obtain ⟨ds, hne, hd, rfl, rfl⟩ := citationAt_some h
  have he : ('[' :: 'c' :: (ds ++ ']' :: rest)) ++ ext =
      '[' :: 'c' :: (ds ++ ']' :: (rest ++ ext)) := by simp
  rw [he]
  exact citationAt_build ds _ hne hd

theorem citationAt_consume {l tok rest : List Char}
    (h : citationAt l = some (tok, rest)) : l = tok ++ rest := by
  obtain ⟨ds, _, _, rfl, rfl⟩ := citationAt_some h
  simp

theorem citationAt_rest_length {l tok rest : List Char}
    (h : citationAt l = some (tok, rest)) : rest.length < l.length := by
  obtain ⟨ds, _, _, rfl, rfl⟩ := citationAt_some h
  simp only [List.length_cons, List.length_append]
  omega

theorem citationAt_token {l tok rest : List Char}
    (h : citationAt l = some (tok, rest)) : isCitationToken tok = true := by
  obtain ⟨ds, hne, hd, _, rfl⟩ := citationAt_some h
  have he : ds ++ [']'] = ds ++ ']' :: ([] : List Char) := by simp
  unfold isCitationToken
  rw [he, citationAt_build ds [] hne hd]
  rfl

theorem splitGoAux_join :
    ∀ (fuel : Nat) (acc l : List Char), l.length ≤ fuel →
      (splitGoAux fuel acc l).flatten = acc.reverse ++ l := by
  intro fuel
  induction fuel with
  | zero =>
    intro acc l h
    have h0 : l = [] := List.eq_nil_of_length_eq_zero (Nat.le_zero.mp h)
    subst h0
    simp [splitGoAux]
  | succ fuel ih =>
    intro acc l hl
    cases hc : citationAt l with
    | some pr =>
      obtain ⟨tok, rest⟩ := pr
      have hrl := citationAt_rest_length hc
      simp only [splitGoAux, hc, List.flatten_cons]
      rw [ih [] rest (by omega)]
      rw [citationAt_consume hc]
      simp
    | none =>
      cases l with
      | nil => simp [splitGoAux, hc]
      | cons c cs =>
        simp only [splitGoAux, hc]
        rw [ih (c :: acc) cs (by simp at hl; omega)]
        simp

theorem containsCitation_false_iff (l : List Char) :
    containsCitation l = false ↔ ∀ i, citationAt (l.drop i) = none := by
  induction l with
  | nil => simp [containsCitation, citationAt_nil]
  | cons c cs ih =>
    simp only [containsCitation, Bool.or_eq_false_iff]
    constructor
    · intro h i
      cases i with
      | zero =>
        rw [List.drop_zero]
        cases hc : citationAt (c :: cs) with
        | none => rfl
        | some pr =>
          have h1 := h.1
          rw [hc] at h1
          simp at h1
      | succ i =>
        rw [List.drop_succ_cons]
        exact (ih.mp h.2) i
    · intro h
      have h0 := h 0
      rw [List.drop_zero] at h0
      refine ⟨by rw [h0]; rfl, ih.mpr fun i => ?_⟩
      have hi := h (i + 1)
      rw [List.drop_succ_cons] at hi
      exact hi

theorem isCitationToken_contains {l : List Char}
    (h : isCitationToken l = true) : containsCitation l = true := by
  unfold isCitationToken at h
  cases hc : citationAt l with
  | none => rw [hc] at h; simp at h
  | some pr =>
    obtain ⟨tok, rest⟩ := pr
    obtain ⟨ds, _, _, hl, _⟩ := citationAt_some hc
    cases l with
    | nil => simp at hl
    | cons a as => simp [containsCitation, hc]

theorem splitGoAux_parts :
    ∀ (fuel : Nat) (acc l : List Char), l.length ≤ fuel →
      (∀ i, i < acc.length → citationAt (acc.reverse.drop i ++ l) = none) →
      ∀ p ∈ splitGoAux fuel acc l,
        containsCitation p = false ∨ isCitationToken p = true := by
  intro fuel
  induction fuel with
  | zero =>
    intro acc l hl H p hp
    have h0 : l = [] := List.eq_nil_of_length_eq_zero (Nat.le_zero.mp hl)
    subst h0
    simp only [splitGoAux, List.append_nil, List.mem_singleton] at hp
    subst hp
    left
    refine (containsCitation_false_iff _).mpr fun i => ?_
    by_cases hi : i < acc.length
    · simpa using H i hi
    · rw [List.drop_eq_nil_of_le (by simp; omega)]
      exact citationAt_nil
  | succ fuel ih =>
    intro acc l hl H p hp
    cases hc : citationAt l with
    | some pr =>
      obtain ⟨tok, rest⟩ := pr
      simp only [splitGoAux, hc] at hp
      rcases List.mem_cons.mp hp with rfl | hp2
      · left
        refine (containsCitation_false_iff _).mpr fun i => ?_
        by_cases hi : i < acc.length
        · cases hcc : citationAt (acc.reverse.drop i) with
          | none => rfl
          | some pr2 =>
            obtain ⟨t2, r2⟩ := pr2
            have hap := citationAt_append l hcc
            rw [H i hi] at hap
            cases hap
        · rw [List.drop_eq_nil_of_le (by simp; omega)]
          exact citationAt_nil
      · rcases List.mem_cons.mp hp2 with rfl | hp3
        · right
          exact citationAt_token hc
        · have hrl := citationAt_rest_length hc
          refine ih [] rest (by omega) (fun i hi => by simp at hi) p hp3
    | none =>
      cases l with
      | nil =>
        simp only [splitGoAux, hc, List.mem_singleton] at hp
        subst hp
        left
        refine (containsCitation_false_iff _).mpr fun i => ?_
        by_cases hi : i < acc.length
        · simpa using H i hi
        · rw [List.drop_eq_nil_of_le (by simp; omega)]
          exact citationAt_nil
      | cons c cs =>
        simp only [splitGoAux, hc] at hp
        refine ih (c :: acc) cs (by simp at hl; omega) (fun i hi => ?_) p hp
        have hrev : (c :: acc).reverse = acc.reverse ++ [c] := by simp
        simp only [List.length_cons] at hi
        by_cases hi' : i < acc.length
        · rw [hrev, List.drop_append_of_le_length (by simp; omega)]
          have hH := H i hi'
          rw [List.append_assoc]
          simpa using hH
        · have hie : i = acc.length := by omega
          subst hie
          rw [hrev, List.drop_append_of_le_length (by simp)]
          rw [show acc.length = acc.reverse.length by simp, List.drop_length]
          simpa using hc

/-- C9: splitting assistant message content by the capturing citation regex
loses no text — concatenating the returned parts in order equals the original
content — and a part is rendered as a clickable citation button (the
unanchored citation pattern matches inside it) exactly when the part is
itself a citation token of the form bracket-c-digits-bracket. -/
theorem splitCitations_spec (l : List Char) :
    (splitCitations l).flatten = l ∧
    ∀ p ∈ splitCitations l,
      (containsCitation p = true ↔ isCitationToken p = true) := by
  refine ⟨splitGoAux_join l.length [] l (le_refl _), fun p hp => ?_⟩
  have hparts := splitGoAux_parts l.length [] l (le_refl _)
    (fun i hi => by simp at hi) p hp
  rcases hparts with hf | ht
  · constructor
    · intro hcont
      rw [hcont] at hf
      cases hf
    · intro htok
      have := isCitationToken_contains htok
      rw [this] at hf
      cases hf
  · exact ⟨fun _ => ht, fun _ => isCitationToken_contains ht⟩

/-- Witness for C9 on a concrete message: the parts reassemble to the
content, and the citation part of that split renders as a button exactly
because it is a citation token. -/
theorem splitCitations_spec_witness :
    (splitCitations ("see [c1] ok".toList)).flatten = "see [c1] ok".toList ∧
    (containsCitation ("[c1]".toList) = true ↔
      isCitationToken ("[c1]".toList) = true) :=
  ⟨(splitCitations_spec ("see [c1] ok".toList)).1,
   (splitCitations_spec ("see [c1] ok".toList)).2 ("[c1]".toList) (by decide)⟩

/-- C2: with an empty evidence list the Grounded Answer Generator skips the
validation phase entirely — the result does not depend on either LLM call —
and returns, without raising an error, confidence exactly 0, an empty
sources list and the sentinel message that no supporting context was
found. -/
theorem generateAnswer_empty_evidence
    (draftCall : Except String DraftAnswer)
    (validateCall : Except String (ℚ × List UnsupportedSpan)) :
    generateAnswer [] draftCall validateCall =
      .ok { message := noContextMessage, sources := [], confidence := 0,
            unsupported_spans := [] } := rfl

/-- Counterexample for C6: with one Evidence item with id c1 and a draft
whose message text contains the marker for the unknown id c9, the returned
message still contains a citation marker whose id does not appear in the
sources list. -/
theorem citation_marker_not_in_sources :
    ¬ (∀ (evidence : List Evidence) (draftCall : Except String DraftAnswer)
        (validateCall : Except String (ℚ × List UnsupportedSpan))
        (r : AnswerResult),
        generateAnswer evidence draftCall validateCall = .ok r →
        ∀ id ∈ extractCitationIds r.message.toList,
          ∃ s ∈ r.sources, s.chunk_id.toList = id) := by
  intro h
  have hres : generateAnswer [⟨"c1", "doc1", "some text", 1, none, 0⟩]
      (.ok ⟨"Hello [c9]", ["c9"]⟩) (.ok (1, [])) =
      .ok ⟨"Hello [c9]", [], 1, []⟩ := by rfl
  have h2 := h [⟨"c1", "doc1", "some text", 1, none, 0⟩]
    (.ok ⟨"Hello [c9]", ["c9"]⟩) (.ok (1, [])) ⟨"Hello [c9]", [], 1, []⟩
    hres (['c', '9']) (by decide)
  obtain ⟨s, hs, _⟩ := h2
  simp at hs

/-- C6 amended: any used_chunks entry that does not correspond to a known
Evidence id is dropped before validation, so every Evidence item in the
final sources list is one of the Evidence items passed to the draft phase
and its id was cited by the draft; a citation marker for an unknown id may
however remain inside the message text. -/
theorem generateAnswer_sources_cited (evidence : List Evidence)
    (draft : DraftAnswer)
    (validateCall : Except String (ℚ × List UnsupportedSpan))
    (r : AnswerResult)
    (h : generateAnswer evidence (.ok draft) validateCall = .ok r) :
    ∀ s ∈ r.sources, s ∈ evidence ∧ s.chunk_id ∈ draft.used_chunks := by
  unfold generateAnswer at h
  split at h
  · obtain rfl := Except.ok.inj h
    intro s hs
    simp at hs
  · dsimp only at h
    split at h
    all_goals
      obtain rfl := Except.ok.inj h
      intro s hs
      simp only [List.mem_filter] at hs
      refine ⟨hs.1, ?_⟩
      have hc : s.chunk_id ∈ (draft.used_chunks.filter fun id =>
          evidence.any fun ev => ev.chunk_id == id) := by
        simpa using hs.2
      exact List.mem_of_mem_filter hc

/-- Witness for the amended C6 at a concrete draft: the single source
returned is the Evidence item passed in and its id is among the cited
chunks. -/
theorem generateAnswer_sources_cited_witness :
    (⟨"c1", "doc1", "t", 1, none, 0⟩ : Evidence) ∈
      [(⟨"c1", "doc1", "t", 1, none, 0⟩ : Evidence)] ∧
    "c1" ∈ ["c1", "c9"] := by
  have h := generateAnswer_sources_cited
    [⟨"c1", "doc1", "t", 1, none, 0⟩] ⟨"A [c1]", ["c1", "c9"]⟩
    (.ok (1, [])) ⟨"A [c1]", [⟨"c1", "doc1", "t", 1, none, 0⟩], 1, []⟩
    (by rfl)
  exact h ⟨"c1", "doc1", "t", 1, none, 0⟩ (by decide)

/-- C7: probing the Response Cache twice with the same prompt hash and no
intervening TTL expiry returns the same cached completion and the second
probe performs no external LLM call; on a hit no external call happens at
all; and a failed LLM call leaves the cache unchanged, so failures are
never cached. -/
theorem cache_idempotent_no_failure_caching
    (cache : List CacheEntry) (t t2 : Nat) (k v e : String)
    (llm llm2 : Except String String) :
    (cacheGet cache t k = none → llm = .ok v →
      cachedComplete cache t k llm = (.ok v, cachePut cache t k v, 1) ∧
      (t ≤ t2 → t2 < t + cacheTTL →
        cachedComplete (cachePut cache t k v) t2 k llm2 =
          (.ok v, cachePut cache t k v, 0))) ∧
    (cacheGet cache t k = some v →
      cachedComplete cache t k llm = (.ok v, cache, 0)) ∧
    (cacheGet cache t k = none → llm = .error e →
      cachedComplete cache t k llm = (.error e, cache, 1)) := by
  refine ⟨fun hmiss hok => ⟨?_, fun ht1 ht2 => ?_⟩, fun hhit => ?_, fun hmiss herr => ?_⟩
  · unfold cachedComplete
    rw [hmiss, hok]
  · have hget : cacheGet (cachePut cache t k v) t2 k = some v := by
      unfold cacheGet cachePut
      simp [List.find?_cons, ht2]
    unfold cachedComplete
    rw [hget]
  · unfold cachedComplete
    rw [hhit]
  · unfold cachedComplete
    rw [hmiss, herr]

/-- Witness for C7: a concrete store-then-probe run in which the second
probe returns the stored completion without consulting its own failing LLM
argument. -/
theorem cache_idempotent_no_failure_caching_witness :
    cachedComplete [] 0 "prompt" (.ok "done") =
      (.ok "done", cachePut [] 0 "prompt" "done", 1) ∧
    cachedComplete (cachePut [] 0 "prompt" "done") 10 "prompt" (.error "x") =
      (.ok "done", cachePut [] 0 "prompt" "done", 0) := by
  have h := (cache_idempotent_no_failure_caching [] 0 10 "prompt" "done" "x"
    (.ok "done") (.error "x")).1 (by decide) rfl
  exact ⟨h.1, h.2 (by decide) (by decide)⟩

/-- C5: every rerank score produced by the sigmoid normalization lies in the
unit interval, and the sigmoid is monotone: a strictly larger logit yields a
rerank score at least as large. -/
theorem sigmoid_bounds_monotone (a b : ℝ) :
    (0 ≤ sigmoid a ∧ sigmoid a ≤ 1) ∧ (b < a → sigmoid b ≤ sigmoid a) := by
  have hea : 0 < Real.exp (-a) := Real.exp_pos _
  have heb : 0 < Real.exp (-b) := Real.exp_pos _
  have hda : 0 < 1 + Real.exp (-a) := by linarith
  have hdb : 0 < 1 + Real.exp (-b) := by linarith
  refine ⟨⟨?_, ?_⟩, fun hba => ?_⟩
  · unfold sigmoid
    positivity
  · unfold sigmoid
    rw [div_le_one hda]
    linarith
  · have hexp : Real.exp (-a) ≤ Real.exp (-b) :=
      Real.exp_le_exp.mpr (by linarith)
    unfold sigmoid
    exact one_div_le_one_div_of_le hda (by linarith)

/-- Witness for C5 at concrete logits one and zero. -/
theorem sigmoid_bounds_monotone_witness :
    (0 ≤ sigmoid 1 ∧ sigmoid 1 ≤ 1) ∧ sigmoid 0 ≤ sigmoid 1 :=
  ⟨(sigmoid_bounds_monotone 1 0).1, (sigmoid_bounds_monotone 1 0).2 one_pos⟩

/-- C8: getLevel classifies a confidence as high exactly when it is at least
three quarters, as medium exactly when it is at least two fifths but below
three quarters, and as low exactly when it is below two fifths; the three
cases are mutually exclusive and cover every input. -/
theorem getLevel_spec (c : ℚ) :
    (getLevel c = .high ↔ c ≥ 3/4) ∧
    (getLevel c = .medium ↔ 2/5 ≤ c ∧ c < 3/4) ∧
    (getLevel c = .low ↔ c < 2/5) ∧
    (getLevel c = .high ∨ getLevel c = .medium ∨ getLevel c = .low) := by
  unfold getLevel
  split_ifs with h1 h2
  · exact ⟨⟨fun _ => h1, fun _ => rfl⟩,
      ⟨fun hh => absurd hh (by simp),
       fun hh => absurd h1 (not_le.mpr hh.2)⟩,
      ⟨fun hh => absurd hh (by simp),
       fun hh => absurd h1 (not_le.mpr (by linarith))⟩,
      Or.inl rfl⟩
  · exact ⟨⟨fun hh => absurd hh (by simp), fun hh => absurd hh h1⟩,
      ⟨fun _ => ⟨h2, not_le.mp h1⟩, fun _ => rfl⟩,
      ⟨fun hh => absurd hh (by simp),
       fun hh => absurd hh (not_lt.mpr h2)⟩,
      Or.inr (Or.inl rfl)⟩
  · exact ⟨⟨fun hh => absurd hh (by simp), fun hh => absurd hh h1⟩,
      ⟨fun hh => absurd hh (by simp), fun hh => absurd hh.1 h2⟩,
      ⟨fun _ => not_le.mp h2, fun _ => rfl⟩,
      Or.inr (Or.inr rfl)⟩

/-- C10: a citation click opens the PDF viewer only when the clicked chunk
id is present in the sources map — when absent the whole application state
is returned unchanged — and when the viewer opens, the page passed is the
source page when that page is a present nonzero number and 1 otherwise. -/
theorem handleCitationClick_spec (sources : List EvidenceSource)
    (chunkId : String) (s : AppState) :
    (sourcesMapLookup sources chunkId = none →
      handleCitationClick sources chunkId s = s) ∧
    (∀ src, sourcesMapLookup sources chunkId = some src →
      (handleCitationClick sources chunkId s).pdfViewerOpen = true ∧
      (handleCitationClick sources chunkId s).pdfViewerDocumentId =
        some src.document_id ∧
      (∀ p : ℚ, src.page = some p → p ≠ 0 →
        (handleCitationClick sources chunkId s).pdfViewerPage = p) ∧
      ((src.page = none ∨ src.page = some 0) →
        (handleCitationClick sources chunkId s).pdfViewerPage = 1)) := by
  constructor
  · intro h
    unfold handleCitationClick
    rw [h]
  · intro src h
    unfold handleCitationClick
    rw [h]
    refine ⟨rfl, rfl, fun p hp hp0 => ?_, fun hp => ?_⟩
    · simp [openPdfViewer, effectivePage, hp, hp0]
    · rcases hp with hp | hp <;> simp [openPdfViewer, effectivePage, hp]

/-- Witness for C10: clicking with an id absent from an empty sources list
leaves the initial state unchanged, and clicking a present source with page
5 opens the viewer at page 5. -/
theorem handleCitationClick_spec_witness :
    handleCitationClick [] "c1" initialAppState = initialAppState ∧
    (handleCitationClick [⟨"c1", "doc1", some 5, [' ', 'h', 'i']⟩] "c1"
      initialAppState).pdfViewerPage = 5 := by
  have h1 := (handleCitationClick_spec [] "c1" initialAppState).1 rfl
  have h2 := ((handleCitationClick_spec
    [⟨"c1", "doc1", some 5, [' ', 'h', 'i']⟩] "c1" initialAppState).2
    ⟨"c1", "doc1", some 5, [' ', 'h', 'i']⟩ (by decide)).2.2.1 5 rfl
    (by norm_num)
  exact ⟨h1, h2⟩

end PRISM
